import Mathlib

/-!
Verification development for the Marvel screenplay dialogue scraper
(`scrape.py`).  The Python source is shallowly embedded: lines are
`List Char`, the regular-expression substitutions of `clean_line` are
modelled pattern-by-pattern (each Python regex is simple enough that
greedy maximal-munch matching coincides with the backtracking
semantics, since adjacent character classes are disjoint), and the
`extract_dialogues` while-loop with its manual index advancement is
modelled as a structurally recursive pass over the list of lines with
an explicit segmenter state.  Python's `\d` and `\s` classes are
modelled by `Char.isDigit` and `Char.isWhitespace`, and `str.upper` by
`Char.toUpper` (ASCII behaviour; the inputs of interest are ASCII).
-/

namespace Scrape

/-- Lines of text are modelled as lists of characters. -/
abbrev Str := List Char

/-- Python whitespace test for a character (model of the `\s` class and
of the default `str.strip`/`str.split` separator set). -/
def wsC (c : Char) : Bool := c.isWhitespace

/-- Remove leading whitespace, as Python `lstrip`. -/
def stripL (s : Str) : Str := s.dropWhile wsC

/-- Remove trailing whitespace, as Python `rstrip`. -/
def stripR (s : Str) : Str := (s.reverse.dropWhile wsC).reverse

/-- Python `str.strip()`: remove leading and trailing whitespace. -/
def pyStrip (s : Str) : Str := stripR (stripL s)

/-- Worker for `splitWs`, structurally recursive on a fuel bounded
below by the list length (each step strictly shortens the list, so the
fuel-exhaustion case is never reached when starting at the length). -/
def splitWsAux : Nat → Str → List Str
  | 0, _ => []
  | _ + 1, [] => []
  | fuel + 1, c :: cs =>
    if wsC c then splitWsAux fuel cs
    else (c :: cs.takeWhile (fun d => !wsC d)) :: splitWsAux fuel (cs.dropWhile (fun d => !wsC d))

/-- Python `str.split()` with no argument: split on runs of whitespace,
producing no empty words. -/
def splitWs (s : Str) : List Str := splitWsAux s.length s

/-- Python `str.upper()` applied characterwise (ASCII model). -/
def upperStr (s : Str) : Str := s.map Char.toUpper

/-- Does `hay` begin with `pat` (case-sensitive)? -/
def leadsWith : Str → Str → Bool
  | _, [] => true
  | [], _ :: _ => false
  | h :: hs, p :: ps => h = p && leadsWith hs ps

/-- Python substring test `needle in hay` (case-sensitive). -/
def containsSub (hay needle : Str) : Bool :=
  match hay with
  | [] => needle.isEmpty
  | _ :: t => leadsWith hay needle || containsSub t needle

/-- Python `hay.endswith(suf)` (case-sensitive). -/
def endsWithStr (hay suf : Str) : Bool := leadsWith hay.reverse suf.reverse

/-- Consume the literal `lit` from the front of `s`, case-sensitively,
returning the remainder on success. -/
def dropCS : Str → Str → Option Str
  | [], s => some s
  | _ :: _, [] => none
  | p :: ps, c :: cs => if c = p then dropCS ps cs else none

/-- Consume the literal `lit` from the front of `s`, case-insensitively
(model of a literal inside a regex compiled with `re.IGNORECASE`). -/
def dropCI : Str → Str → Option Str
  | [], s => some s
  | _ :: _, [] => none
  | p :: ps, c :: cs => if c.toUpper = p.toUpper then dropCI ps cs else none

/-- Greedy `\d+`: at least one digit, consuming the maximal digit run. -/
def digits1 : Str → Option Str
  | [] => none
  | c :: cs => if c.isDigit then some (cs.dropWhile Char.isDigit) else none

/-- Greedy `\s+`: at least one whitespace, consuming the maximal run. -/
def ws1 : Str → Option Str
  | [] => none
  | c :: cs => if wsC c then some (cs.dropWhile wsC) else none

/-- Pattern `SALMON #\d+\s+XX/XX/\d+\s+\d+\.?` matched at the front of
`s` (page-header stamp); returns the remainder after the match. -/
def p1Header (s : Str) : Option Str := do
  let s ← dropCI "SALMON #".data s
  let s ← digits1 s
  let s ← ws1 s
  let s ← dropCI "XX/XX/".data s
  let s ← digits1 s
  let s ← ws1 s
  let s ← digits1 s
  match s with
  | '.' :: r => some r
  | r => some r

/-- Pattern `© \d+ MARVEL STUDIOS, INC\.` matched at the front of `s`. -/
def p2Copyright (s : Str) : Option Str := do
  let s ← dropCI "© ".data s
  let s ← digits1 s
  dropCI " MARVEL STUDIOS, INC.".data s

/-- Pattern `NO DUPLICATION WITHOUT MARVEL’S WRITTEN CONSENT.` at the
front of `s`.  The final `.` of the Python pattern is an unescaped
regex dot, hence matches any single character other than a newline. -/
def p3NoDup (s : Str) : Option Str := do
  let s ← dropCI "NO DUPLICATION WITHOUT MARVEL’S WRITTEN CONSENT".data s
  match s with
  | c :: r => if c = '\n' then none else some r
  | [] => none

/-- Pattern `\(CONTINUED\)` at the front of `s`. -/
def p4Continued (s : Str) : Option Str := dropCI "(CONTINUED)".data s

/-- Pattern `CONTINUED:` at the front of `s`. -/
def p5ContColon (s : Str) : Option Str := dropCI "CONTINUED:".data s

/-- Pattern `\(MORE\)` at the front of `s`. -/
def p6More (s : Str) : Option Str := dropCI "(MORE)".data s

/-- Model of `re.sub(pat, '', s)` for an unanchored pattern: scan left
to right, and whenever the prefix matcher `m` succeeds, delete the
matched characters and continue after them.  The length guard is a
termination aid; every matcher used consumes at least one character. -/
def subAllAux (m : Str → Option Str) : Nat → Str → Str
  | 0, s => s
  | _ + 1, [] => []
  | fuel + 1, c :: cs =>
    match m (c :: cs) with
    | some rest =>
      if rest.length < cs.length + 1 then subAllAux m fuel rest else c :: subAllAux m fuel cs
    | none => c :: subAllAux m fuel cs

/-- Entry point of the `re.sub` model, with fuel set to the string
length (sufficient, since every step strictly shortens the string). -/
def subAll (m : Str → Option Str) (s : Str) : Str := subAllAux m s.length s

/-- Model of `re.sub(r'^\d+\s*$', '', s)`: the pattern is anchored at
both ends, so it either deletes the whole string or does nothing
(greedy `\s*` also absorbs a string-final newline). -/
def sub7Standalone (s : Str) : Str :=
  match digits1 s with
  | some r => if (r.dropWhile wsC).isEmpty then [] else s
  | none => s

/-- Attempt to match `\d+\s+\d+$` at the front of `s`; on success
return the remainder kept after the deleted match (empty, or a final
newline when `$` matched just before it). -/
def p8At (s : Str) : Option Str := do
  let r ← digits1 s
  let r ← ws1 r
  let r ← digits1 r
  match r with
  | [] => some []
  | ['\n'] => some ['\n']
  | _ => none

/-- Model of `re.sub(r'\d+\s+\d+$', '', s)`: find the leftmost position
where the end-anchored pattern matches and delete from there. -/
def sub8TwoNum : Str → Str
  | [] => []
  | c :: cs =>
    match p8At (c :: cs) with
    | some rem => rem
    | none => c :: sub8TwoNum cs

/-- Model of `re.sub(r'^\s*\d+\s+\d+\s*$', '', s)`: anchored at both
ends, so it either deletes the whole string or does nothing. -/
def sub9TwoNumLine (s : Str) : Str :=
  match digits1 (s.dropWhile wsC) with
  | some r1 =>
    match ws1 r1 with
    | some r2 =>
      match digits1 r2 with
      | some r3 => if (r3.dropWhile wsC).isEmpty then [] else s
      | none => s
    | none => s
  | none => s

/-- The nine `re.sub` removals of `clean_line`, applied in the order of
the Python `patterns` list. -/
def cleanPatterns (s : Str) : Str :=
  sub9TwoNumLine (sub8TwoNum (sub7Standalone
    (subAll p6More (subAll p5ContColon (subAll p4Continued
      (subAll p3NoDup (subAll p2Copyright (subAll p1Header s))))))))

/-- Model of `clean_line` from `scrape.py`: apply the nine removal patterns in
order, then `strip()` the result. -/
def clean_line (s : Str) : Str := pyStrip (cleanPatterns s)

/-- The allow-list `common_exclamations` of `is_valid_dialogue_line`. -/
def common_exclamations : List Str :=
  ["NO", "YES", "OH", "AH", "HEY", "HI", "OK", "GO", "STOP", "WAIT", "WOW"].map String.data

/-- The `non_dialogue_indicators` list of `is_valid_dialogue_line`. -/
def non_dialogue_indicators : List Str :=
  ["FADE IN:", "FADE OUT", "CUT TO:", "DISSOLVE TO:", "SMASH CUT", "QUICK CUT",
   "MATCH CUT", "TITLE OVER", "SUPER:", "INT.", "EXT.", "CONTINUED:", "ANGLE ON",
   "SCENE", "ACT"].map String.data

/-- Python `word.strip(',.!?-_')`: remove those characters from both
ends of the word. -/
def stripPunct (w : Str) : Str :=
  let punct : Char → Bool := fun c => c = ',' || c = '.' || c = '!' || c = '?' || c = '-' || c = '_'
  ((w.dropWhile punct).reverse.dropWhile punct).reverse

/-- Python `str.isupper()`: at least one cased character, and no cased
character is lowercase (ASCII model: cased = alphabetic). -/
def pyIsUpper (s : Str) : Bool :=
  s.any Char.isAlpha && s.all (fun c => !c.isAlpha || c.isUpper)

/-- Test for `re.match(r'^\d+\.', line)`: one or more leading digits
followed by a period. -/
def startsEnum (s : Str) : Bool :=
  match s with
  | [] => false
  | c :: _ => c.isDigit && (match s.dropWhile Char.isDigit with
                            | '.' :: _ => true
                            | _ => false)

/-- The per-word test of the all-caps check: a word that, after
stripping `',.!?-_'`, is non-empty, longer than two characters,
upper-case, and not an allow-listed exclamation. -/
def capsWordBad (w0 : Str) : Bool :=
  !(stripPunct w0).isEmpty && decide (2 < (stripPunct w0).length) &&
    pyIsUpper (stripPunct w0) && !(common_exclamations.contains (stripPunct w0))

/-- The speaker-name check: `current_character and current_character.upper()
in line.upper()` (the `Option` models `None`; a string is truthy exactly
when non-empty). -/
def nameInLine (line : Str) (current_character : Option Str) : Bool :=
  match current_character with
  | some cc => !cc.isEmpty && containsSub (upperStr line) (upperStr cc)
  | none => false

/-- The scene/transition-indicator check of `is_valid_dialogue_line`. -/
def hasIndicator (line : Str) : Bool :=
  non_dialogue_indicators.any (fun ind => containsSub (upperStr line) ind)

/-- Model of `is_valid_dialogue_line` from `scrape.py`: the four rejection
checks in source order, each an early `return False`. -/
def is_valid_dialogue_line (line0 : Str) (current_character : Option Str) : Bool :=
  if (splitWs (pyStrip line0)).any capsWordBad then false
  else if startsEnum (pyStrip line0) then false
  else if nameInLine (pyStrip line0) current_character then false
  else if hasIndicator (pyStrip line0) then false
  else true

/-- Character class `[A-Z]` of the speaker-cue regex. -/
def isUpperAZ (c : Char) : Bool := 'A' ≤ c && c ≤ 'Z'

/-- Character class `[A-Z\s\']` of the speaker-cue regex. -/
def isNameChar (c : Char) : Bool := isUpperAZ c || wsC c || c = '\''

/-- Does the remainder after the maximal name run complete the cue
regex, i.e. match `(?:\s*\([^)]+\))?\s*$`?  Since the name class
absorbs whitespace, the leading `\s*` is necessarily empty here, so
the remainder is either the end of the line or an immediate
parenthetical `\([^)]+\)` followed by `\s*$`. -/
def cueTailOK (r : Str) : Bool :=
  match r with
  | [] => true
  | '(' :: r2 =>
    if (r2.takeWhile (fun d => !(d = ')'))).isEmpty then false
    else
      match r2.dropWhile (fun d => !(d = ')')) with
      | ')' :: r4 => (r4.dropWhile wsC).isEmpty
      | _ => false
  | _ => false

/-- Match `([A-Z][A-Z\s\']+)(?:\s*\([^)]+\))?\s*$` against `s`,
returning the captured group.  Greedy maximal-munch is exact here:
after the maximal name run the next character is outside the class
(hence not whitespace), so the optional parenthetical must start
immediately, and shortening the group can never create a match. -/
def cueCore (s : Str) : Option Str :=
  match s with
  | [] => none
  | c :: rest =>
    if isUpperAZ c && !(rest.takeWhile isNameChar).isEmpty &&
        cueTailOK (rest.dropWhile isNameChar)
    then some (c :: rest.takeWhile isNameChar)
    else none

/-- The greedy attempt at the optional `(?:THE\s+)?` leading group:
consume a literal `THE`, at least one whitespace, then the name. -/
def cueWithThe (line : Str) : Option Str := do
  let r ← dropCS "THE".data line
  let r ← ws1 r
  cueCore r

/-- Model of `re.match(r'^(?:THE\s+)?([A-Z][A-Z\s\']+)(?:\s*\([^)]+\))?\s*$', line)`,
returning `group(1)` (un-stripped).  The optional `THE\s+` is tried
greedily first, falling back to the bare name, as a backtracking
engine would. -/
def cueMatch (line : Str) : Option Str :=
  match cueWithThe line with
  | some g => some g
  | none => cueCore line

/-- The mutable state of the `extract_dialogues` loop: the dictionary
of collected blocks, `current_character`, and `current_dialogue`. -/
structure SegState where
  dict : List (Str × List Str)
  cur : Option Str
  dlg : List Str
deriving DecidableEq, Repr

/-- Python truthiness of the `current_character` variable (`None` and
the empty string are falsy). -/
def truthy : Option Str → Bool
  | none => false
  | some s => !s.isEmpty

/-- Append `v` to the list stored under key `k` (Python
`d[k].append(v)` on an association list with unique keys). -/
def dappend (d : List (Str × List Str)) (k : Str) (v : Str) : List (Str × List Str) :=
  d.map (fun p => if p.1 = k then (p.1, p.2 ++ [v]) else p)

/-- Python `k in d` on the dictionary. -/
def hasKey (d : List (Str × List Str)) (k : Str) : Bool :=
  d.any (fun p => decide (p.1 = k))

/-- Python `' '.join(xs)`. -/
def joinSp : List Str → Str
  | [] => []
  | [x] => x
  | x :: y :: r => x ++ ' ' :: joinSp (y :: r)

/-- The block-saving code repeated at the three flush sites of
`extract_dialogues`: if a speaker is active with pending lines, join
them, and append the result to the speaker's list when the speaker is
a dictionary key and the joined text is non-empty. -/
def flushInto (d : List (Str × List Str)) (cur : Option Str) (dlg : List Str) :
    List (Str × List Str) :=
  match cur with
  | none => d
  | some c =>
    if c ≠ [] ∧ dlg ≠ [] then
      if hasKey d c then
        if pyStrip (joinSp dlg) = [] then d else dappend d c (pyStrip (joinSp dlg))
      else d
    else d

/-- State change at a speaker-cue line: save the previous dialogue (and
reset `current_dialogue` exactly when the save branch ran), then set
the new speaker to the stripped capture group. -/
def cueStep (st : SegState) (g : Str) : SegState :=
  { dict := flushInto st.dict st.cur st.dlg,
    cur := some (pyStrip g),
    dlg := if truthy st.cur ∧ st.dlg ≠ [] then [] else st.dlg }

/-- The look-ahead consumption shared by the cue and continuation
branches: clean the next raw line and append it to the pending
dialogue if it is non-empty and valid for the current speaker. -/
def peekStep (st : SegState) (nl : Str) : SegState :=
  match st.cur with
  | none => st
  | some c =>
    let dl := clean_line nl
    if dl ≠ [] ∧ is_valid_dialogue_line dl (some c) = true then
      { st with dlg := st.dlg ++ [dl] }
    else st

/-- The literal suffix `"(cont'd)"` tested case-sensitively by
`line.endswith` in the continuation branch. -/
def contSuffix : Str := "(cont'd)".data

/-- Python `s.replace(lit, '')`: delete every occurrence of `lit`,
scanning left to right. -/
def removeAllCS (lit : Str) (s : Str) : Str := subAll (dropCS lit) s

/-- The flush-and-reset performed when a non-dialogue line terminates a
block in the generic accumulation branch. -/
def genFlush (st : SegState) (c : Str) : SegState :=
  { dict := flushInto st.dict (some c) st.dlg, cur := none, dlg := [] }

/-- The cue branch of the loop body: save-and-switch speaker, then
consume the look-ahead line (Python executes `i += 1` here whether or
not a next line exists). -/
def cueGo (st : SegState) (g : Str) (next : Option Str) : SegState × Bool :=
  match next with
  | none => (cueStep st g, true)
  | some nl => (peekStep (cueStep st g) nl, true)

/-- The inner body of the continuation branch once the `(cont'd)`
suffix matched: compare the name prefix with the active speaker and,
on a match, consume the look-ahead line. -/
def contTry (st : SegState) (c : Str) (line : Str) (next : Option Str) : SegState × Bool :=
  if upperStr (pyStrip (removeAllCS contSuffix line)) = c then
    match next with
    | none => (st, true)
    | some nl => (peekStep st nl, true)
  else (st, false)

/-- The generic-accumulation branch: with an active speaker and
pending dialogue, append a valid line or flush-and-reset on an
invalid one. -/
def genGo (st : SegState) (c : Str) (line : Str) : SegState × Bool :=
  if c ≠ [] ∧ st.dlg ≠ [] then
    if is_valid_dialogue_line line (some c) = true then
      ({ st with dlg := st.dlg ++ [line] }, false)
    else (genFlush st c, false)
  else (st, false)

/-- The non-cue part of the loop body: continuation test first, then
generic accumulation (mirroring the `elif` chain). -/
def nonCue (st : SegState) (line : Str) (next : Option Str) : SegState × Bool :=
  match st.cur with
  | none => (st, false)
  | some c =>
    if c ≠ [] ∧ endsWithStr line contSuffix = true then contTry st c line next
    else genGo st c line

/-- One iteration of the `extract_dialogues` while-loop at raw line
`l` with optional look-ahead line `next` (Python `lines[i+1]` when
`i + 1 < len(lines)`).  Returns the new state and whether the
look-ahead line was consumed (the branch executed `i += 1`, so the
main loop must skip it). -/
def lineStep (st : SegState) (l : Str) (next : Option Str) : SegState × Bool :=
  let line := clean_line l
  if line = [] then (st, false)
  else
    match cueMatch line with
    | some g => cueGo st g next
    | none => nonCue st line next

/-- One page of the `extract_dialogues` while-loop: a structural pass
over the page's lines.  The Python index arithmetic (`i += 1` inside a
branch to consume the next line) becomes skipping the consumed
look-ahead line when `lineStep` reports it consumed one. -/
def processLines : List Str → SegState → SegState
  | [], st => st
  | l :: rest, st =>
    match rest with
    | [] => (lineStep st l none).1
    | nl :: rest2 =>
      let r := lineStep st l (some nl)
      if r.2 then processLines rest2 r.1 else processLines (nl :: rest2) r.1

/-- The page loop: state carries over from page to page. -/
def runPages (pages : List (List Str)) (st : SegState) : SegState :=
  pages.foldl (fun a pg => processLines pg a) st

/-- The dictionary comprehension `{char.upper(): [] for char in characters}`:
first occurrence fixes the key position, values start empty. -/
def initDict (characters : List Str) : List (Str × List Str) :=
  characters.foldl (fun d ch => if hasKey d (upperStr ch) then d else d ++ [(upperStr ch, [])]) []

/-- The segmenter state after the page loop of `extract_dialogues`,
started from the initial dictionary with no active speaker. -/
def finalState (pages : List (List Str)) (characters : List Str) : SegState :=
  runPages pages { dict := initDict characters, cur := none, dlg := [] }

/-- Model of `extract_dialogues` from `scrape.py`, over an already-extracted
page/line structure (the PDF-to-text step is the out-of-scope black
box): run the segmenter over all pages, then flush any remaining
dialogue. -/
def extract_dialogues (pages : List (List Str)) (characters : List Str) :
    List (Str × List Str) :=
  flushInto (finalState pages characters).dict (finalState pages characters).cur
    (finalState pages characters).dlg

/-- Dictionary lookup on the association list (unique keys). -/
def dlookup : List (Str × List Str) → Str → Option (List Str)
  | [], _ => none
  | p :: r, k => if p.1 = k then some p.2 else dlookup r k

/-- The key list of the result dictionary, in insertion order. -/
def keysOf (d : List (Str × List Str)) : List Str := d.map Prod.fst

/-- Every stored dialogue block is non-empty. -/
def blocksNE (d : List (Str × List Str)) : Prop :=
  ∀ p ∈ d, ∀ b ∈ p.2, b ≠ ([] : Str)

/-- Every pending dialogue line is non-empty and already stripped
(they are all outputs of `clean_line`). -/
def dlgOK (dlg : List Str) : Prop :=
  ∀ x ∈ dlg, x ≠ ([] : Str) ∧ pyStrip x = x

/-- An active speaker name is never the empty string. -/
def curOK : Option Str → Prop
  | none => True
  | some c => c ≠ []

/-- The loop invariant of `extract_dialogues`: the dictionary keys are
fixed at `K`, stored blocks are non-empty, pending lines are non-empty
and stripped, and the active speaker is truthy. -/
def Inv (K : List Str) (st : SegState) : Prop :=
  keysOf st.dict = K ∧ blocksNE st.dict ∧ dlgOK st.dlg ∧ curOK st.cur

/-! ### Lemmas about stripping -/

theorem dropWhile_dropWhile (p : Char → Bool) (l : Str) :
    (l.dropWhile p).dropWhile p = l.dropWhile p := by
  induction l with
  | nil => rfl
  | cons c cs ih =>
    by_cases h : p c
    · simp [List.dropWhile_cons, h, ih]
    · simp [List.dropWhile_cons, h]

theorem stripL_stripL (s : Str) : stripL (stripL s) = stripL s :=
  dropWhile_dropWhile _ _

theorem stripR_stripR (s : Str) : stripR (stripR s) = stripR s := by
  unfold stripR
  rw [List.reverse_reverse, dropWhile_dropWhile]

theorem exists_stripR_append (t : Str) : ∃ u, stripR t ++ u = t := by
  obtain ⟨w, hw⟩ := List.dropWhile_suffix (l := t.reverse) wsC
  refine ⟨w.reverse, ?_⟩
  have h2 := congrArg List.reverse hw
  rw [List.reverse_append, List.reverse_reverse] at h2
  exact h2

theorem stripL_stripR_of_stripL (t : Str) (ht : stripL t = t) :
    stripL (stripR t) = stripR t := by
  cases t0 : stripR t with
  | nil => simp [stripL]
  | cons d us =>
    obtain ⟨u, hu⟩ := exists_stripR_append t
    rw [t0] at hu
    have hd : wsC d = false := by
      by_contra hcon
      rw [Bool.not_eq_false] at hcon
      have hts : t = d :: (us ++ u) := by
        rw [← hu]; simp
      have h2 := ht
      rw [hts] at h2
      simp only [stripL, List.dropWhile_cons, hcon, if_pos] at h2
      have hsub := List.Sublist.length_le (List.dropWhile_sublist (l := us ++ u) wsC)
      have hlen := congrArg List.length h2
      simp only [List.length_cons] at hlen
      omega
    simp [stripL, List.dropWhile_cons, hd]

theorem pyStrip_idem (s : Str) : pyStrip (pyStrip s) = pyStrip s := by
  unfold pyStrip
  rw [stripL_stripR_of_stripL (stripL s) (stripL_stripL s), stripR_stripR]

theorem clean_line_stripped (x : Str) : pyStrip (clean_line x) = clean_line x :=
  pyStrip_idem _

/-! ### Claim C3: idempotence of normalization -/

/-- C3, counterexample: `clean_line` is not idempotent.  The input
`" 1"` is not matched by the standalone-page-number pattern (the `^`
anchor fails on the leading space), so only the final `strip` acts,
producing `"1"`; a second application then deletes `"1"` entirely. -/
theorem c3_counterexample :
    clean_line (clean_line " 1".data) ≠ clean_line " 1".data := by decide

/-- C3, amended: normalization is idempotent on every input whose
normalized form is untouched by the nine removal patterns (a second
application then only re-strips an already stripped string). -/
theorem c3_amended (x : Str) (h : cleanPatterns (clean_line x) = clean_line x) :
    clean_line (clean_line x) = clean_line x := by
  show pyStrip (cleanPatterns (clean_line x)) = clean_line x
  rw [h]
  exact pyStrip_idem _

/-- C3, witness: the amended idempotence applies to an ordinary
dialogue line. -/
theorem c3_witness :
    cleanPatterns (clean_line "Hello there".data) = clean_line "Hello there".data ∧
    clean_line (clean_line "Hello there".data) = clean_line "Hello there".data :=
  ⟨by decide, c3_amended "Hello there".data (by decide)⟩

/-! ### Claim C1: the all-caps allow-list examples -/

/-- C1, counterexample: with active speaker MARY (whose name does not
occur in the line), the line `"NO WAY, I won't do it!"` is REJECTED by
`is_valid_dialogue_line`, not accepted: `"WAY"` is a three-letter
all-caps word absent from the `common_exclamations` allow-list. -/
theorem c1_counterexample :
    containsSub (upperStr "NO WAY, I won't do it!".data) (upperStr "MARY".data) = false ∧
    is_valid_dialogue_line "NO WAY, I won't do it!".data (some "MARY".data) = false := by
  decide

/-- C1, amended: for every active speaker whose name does not occur in
the line, `"NO WAY, I won't do it!"` is rejected (the word `"WAY"` is
all-caps, longer than two characters, and not allow-listed), the
variant `"NO, I won't do it!"` is accepted (only the allow-listed or
short all-caps words remain), and `"THIS IS A SECRET PLAN"` is
rejected. -/
theorem c1_amended (cc : Str)
    (h : containsSub (upperStr "NO, I won't do it!".data) (upperStr cc) = false) :
    is_valid_dialogue_line "NO WAY, I won't do it!".data (some cc) = false ∧
    is_valid_dialogue_line "NO, I won't do it!".data (some cc) = true ∧
    is_valid_dialogue_line "THIS IS A SECRET PLAN".data (some cc) = false := by
  refine ⟨?_, ?_, ?_⟩
  · have h1 : (splitWs (pyStrip "NO WAY, I won't do it!".data)).any capsWordBad = true := by
      decide
    simp [is_valid_dialogue_line, h1]
  · have h1 : (splitWs (pyStrip "NO, I won't do it!".data)).any capsWordBad = false := by
      decide
    have h2 : startsEnum (pyStrip "NO, I won't do it!".data) = false := by decide
    have h3 : nameInLine (pyStrip "NO, I won't do it!".data) (some cc) = false := by
      have hp : pyStrip "NO, I won't do it!".data = "NO, I won't do it!".data := by decide
      simp [nameInLine, hp, h]
    have h4 : hasIndicator (pyStrip "NO, I won't do it!".data) = false := by decide
    simp [is_valid_dialogue_line, h1, h2, h3, h4]
  · have h1 : (splitWs (pyStrip "THIS IS A SECRET PLAN".data)).any capsWordBad = true := by
      decide
    simp [is_valid_dialogue_line, h1]

/-- C1, witness: the amended statement at the concrete speaker MARY. -/
theorem c1_witness :
    containsSub (upperStr "NO, I won't do it!".data) (upperStr "MARY".data) = false ∧
    (is_valid_dialogue_line "NO WAY, I won't do it!".data (some "MARY".data) = false ∧
     is_valid_dialogue_line "NO, I won't do it!".data (some "MARY".data) = true ∧
     is_valid_dialogue_line "THIS IS A SECRET PLAN".data (some "MARY".data) = false) :=
  ⟨by decide, c1_amended "MARY".data (by decide)⟩

/-! ### Driver equations and quiet-step lemmas -/

theorem processLines_one (l : Str) (st : SegState) :
    processLines [l] st = (lineStep st l none).1 := rfl

theorem processLines_cons2 (l nl : Str) (rest2 : List Str) (st : SegState) :
    processLines (l :: nl :: rest2) st =
      if (lineStep st l (some nl)).2 then processLines rest2 (lineStep st l (some nl)).1
      else processLines (nl :: rest2) (lineStep st l (some nl)).1 := rfl

/-- When the active speaker has empty pending dialogue and the line is
neither a speaker cue nor a continuation cue naming the speaker, the
loop body does nothing at all. -/
theorem lineStep_quiet (d : List (Str × List Str)) (n : Str) (l : Str) (next : Option Str)
    (hcue : cueMatch (clean_line l) = none)
    (hno : ¬(endsWithStr (clean_line l) contSuffix = true ∧
             upperStr (pyStrip (removeAllCS contSuffix (clean_line l))) = n)) :
    lineStep ⟨d, some n, []⟩ l next = (⟨d, some n, []⟩, false) := by
  rw [lineStep]
  by_cases hnil : clean_line l = []
  · simp only [if_pos hnil]
  · simp only [if_neg hnil, hcue]
    rw [nonCue]
    by_cases hend : endsWithStr (clean_line l) contSuffix = true
    · by_cases hn : n = []
      · have : ¬(n ≠ [] ∧ endsWithStr (clean_line l) contSuffix = true) := by
          intro hcon; exact hcon.1 hn
        simp only [if_neg this]
        rw [genGo]
        simp
      · simp only [if_pos (And.intro hn hend)]
        have hname : ¬(upperStr (pyStrip (removeAllCS contSuffix (clean_line l))) = n) :=
          fun hc => hno ⟨hend, hc⟩
        rw [contTry.eq_def, if_neg hname]
    · have : ¬(n ≠ [] ∧ endsWithStr (clean_line l) contSuffix = true) := by
        intro hcon; exact hend hcon.2
      simp only [if_neg this]
      rw [genGo]
      simp

/-- With an active speaker, empty pending dialogue, and a stretch of
lines none of which is a speaker cue or a continuation cue naming the
speaker, the whole stretch leaves the state unchanged. -/
theorem processLines_quiet (rest : List Str) (d : List (Str × List Str)) (n : Str)
    (h : ∀ l ∈ rest, cueMatch (clean_line l) = none ∧
         ¬(endsWithStr (clean_line l) contSuffix = true ∧
           upperStr (pyStrip (removeAllCS contSuffix (clean_line l))) = n)) :
    processLines rest ⟨d, some n, []⟩ = ⟨d, some n, []⟩ := by
  induction rest with
  | nil => rfl
  | cons l rest' ih =>
    have hl := h l (List.mem_cons_self l rest')
    have hrest' : ∀ x ∈ rest', cueMatch (clean_line x) = none ∧
        ¬(endsWithStr (clean_line x) contSuffix = true ∧
          upperStr (pyStrip (removeAllCS contSuffix (clean_line x))) = n) :=
      fun x hx => h x (List.mem_cons_of_mem l hx)
    cases rest' with
    | nil =>
      rw [processLines_one, lineStep_quiet d n l none hl.1 hl.2]
    | cons nl rest2 =>
      rw [processLines_cons2, lineStep_quiet d n l (some nl) hl.1 hl.2]
      simpa using ih hrest'

/-! ### Claim C5: scene-heading termination example -/

/-- C5: on the five-line page, MARY gets exactly the two blocks
`"I think we should go."` and `"Let's eat."`, in that order; the scene
heading `"INT. KITCHEN - DAY"` appears in neither block and terminated
the first one. -/
theorem c5_scene_termination :
    extract_dialogues
      [["MARY".data, "I think we should go.".data, "INT. KITCHEN - DAY".data,
        "MARY".data, "Let's eat.".data]] ["Mary".data]
      = [("MARY".data, ["I think we should go.".data, "Let's eat.".data])] := by
  decide

/-! ### Claim C4: no accumulation onto an empty pending block -/

/-- C4, counterexample: after the cue MARY whose next line fails the
validity check, the later valid dialogue line `"Hello there."` is NOT
appended through the generic accumulation path — MARY's result list
stays empty. -/
theorem c4_counterexample :
    cueMatch (clean_line "Hello there.".data) = none ∧
    endsWithStr (clean_line "Hello there.".data) contSuffix = false ∧
    is_valid_dialogue_line (clean_line "Hello there.".data) (some "MARY".data) = true ∧
    extract_dialogues
      [["MARY".data, "THIS IS A SECRET PLAN".data, "Hello there.".data]] ["Mary".data]
      = [("MARY".data, [])] := by
  decide

/-- C4, amended: the generic accumulation path requires at least one
pending line, so while the active speaker's pending dialogue is empty,
a line that is neither a cue nor a continuation cue — even a non-empty
line that passes the dialogue-validity check — changes nothing; the
block stays empty until another cue is processed. -/
theorem c4_amended (d : List (Str × List Str)) (c : Str) (l : Str) (rest : List Str)
    (hcue : cueMatch (clean_line l) = none)
    (hcont : endsWithStr (clean_line l) contSuffix = false)
    (_hval : is_valid_dialogue_line (clean_line l) (some c) = true) :
    processLines (l :: rest) ⟨d, some c, []⟩ = processLines rest ⟨d, some c, []⟩ := by
  have hno : ¬(endsWithStr (clean_line l) contSuffix = true ∧
      upperStr (pyStrip (removeAllCS contSuffix (clean_line l))) = c) := by
    intro hcon
    rw [hcont] at hcon
    exact Bool.false_ne_true hcon.1
  cases rest with
  | nil =>
    rw [processLines_one, lineStep_quiet d c l none hcue hno]
    rfl
  | cons nl rest2 =>
    rw [processLines_cons2, lineStep_quiet d c l (some nl) hcue hno]
    simp

/-- C4, witness: the amended no-op step at a concrete valid line. -/
theorem c4_witness :
    cueMatch (clean_line "Hello there.".data) = none ∧
    endsWithStr (clean_line "Hello there.".data) contSuffix = false ∧
    is_valid_dialogue_line (clean_line "Hello there.".data) (some "MARY".data) = true ∧
    processLines ["Hello there.".data] { dict := initDict ["Mary".data], cur := some "MARY".data, dlg := [] }
      = processLines [] { dict := initDict ["Mary".data], cur := some "MARY".data, dlg := [] } :=
  ⟨by decide, by decide, by decide,
   c4_amended (initDict ["Mary".data]) "MARY".data "Hello there.".data []
     (by decide) (by decide) (by decide)⟩

theorem cueMatch_nil : cueMatch [] = none := by decide

/-- The loop body at a speaker-cue line with a look-ahead line:
flush-and-switch, then the look-ahead line is consumed through the
validity check. -/
theorem lineStep_cue_some (st : SegState) (l nl : Str) (g : Str)
    (h1 : cueMatch (clean_line l) = some g) :
    lineStep st l (some nl) = (peekStep (cueStep st g) nl, true) := by
  have hnil : clean_line l ≠ [] := by
    intro h0
    rw [h0, cueMatch_nil] at h1
    exact Option.noConfusion h1
  rw [lineStep]
  simp only [if_neg hnil, h1]
  rw [cueGo]

/-- In every state reachable from the initial one, a non-empty pending
dialogue implies a truthy active speaker, and then the cue branch
always resets the pending dialogue to empty. -/
theorem cueStep_reset (d : List (Str × List Str)) (cur : Option Str) (dlg : List Str)
    (g : Str) (hinv : dlg ≠ [] → truthy cur = true) :
    cueStep ⟨d, cur, dlg⟩ g = ⟨flushInto d cur dlg, some (pyStrip g), []⟩ := by
  rw [cueStep]
  by_cases hdlg : dlg = []
  · subst hdlg
    simp
  · simp [hinv hdlg, hdlg]

/-- The look-ahead consumption is a no-op when the cleaned next line
fails the dialogue-validity check. -/
theorem peekStep_invalid (d : List (Str × List Str)) (c : Str) (dlg : List Str) (nl : Str)
    (hinval : is_valid_dialogue_line (clean_line nl) (some c) = false) :
    peekStep ⟨d, some c, dlg⟩ nl = ⟨d, some c, dlg⟩ := by
  have hcon : ¬(clean_line nl ≠ [] ∧ is_valid_dialogue_line (clean_line nl) (some c) = true) := by
    intro hcon
    rw [hinval] at hcon
    exact Bool.false_ne_true hcon.2
  simp only [peekStep, if_neg hcon]

/-! ### Claim C10: a consumed second cue line, and what follows -/

/-- C10, counterexample: after the cue MARY and the consumed cue-shaped
invalid line JOHN, the continuation line `"Mary (cont'd)"` (which is
not a speaker-cue line) causes `"Hello there."` to be accumulated for
MARY — so accumulation can resume before any further cue line. -/
theorem c10_counterexample :
    cueMatch (clean_line "JOHN".data) = some "JOHN".data ∧
    is_valid_dialogue_line (clean_line "JOHN".data) (some "MARY".data) = false ∧
    cueMatch (clean_line "Mary (cont'd)".data) = none ∧
    cueMatch (clean_line "Hello there.".data) = none ∧
    extract_dialogues
      [["MARY".data, "JOHN".data, "Mary (cont'd)".data, "Hello there.".data]] ["Mary".data]
      = [("MARY".data, ["Hello there.".data])] := by
  decide

/-- C10, amended: the consumed second cue line never becomes the active
speaker and is not appended as dialogue, and — because the pending
dialogue stays empty — no later line is accumulated for any speaker
until another speaker-cue line or a continuation cue naming the active
speaker is reached. -/
theorem c10_amended (d : List (Str × List Str)) (cur : Option Str) (dlg : List Str)
    (l1 l2 : Str) (rest : List Str) (g g2 : Str)
    (hinv : dlg ≠ [] → truthy cur = true)
    (h1 : cueMatch (clean_line l1) = some g)
    (_h2 : clean_line l2 ≠ [])
    (_h3 : cueMatch (clean_line l2) = some g2)
    (h4 : is_valid_dialogue_line (clean_line l2) (some (pyStrip g)) = false)
    (hrest : ∀ l ∈ rest, cueMatch (clean_line l) = none ∧
        ¬(endsWithStr (clean_line l) contSuffix = true ∧
          upperStr (pyStrip (removeAllCS contSuffix (clean_line l))) = pyStrip g)) :
    processLines (l1 :: l2 :: rest) ⟨d, cur, dlg⟩ =
      ⟨flushInto d cur dlg, some (pyStrip g), []⟩ := by
  rw [processLines_cons2, lineStep_cue_some _ _ _ _ h1, cueStep_reset d cur dlg g hinv,
    peekStep_invalid _ _ _ _ h4]
  simpa using processLines_quiet rest (flushInto d cur dlg) (pyStrip g) hrest

/-- C10, witness: the amended statement at a concrete input. -/
theorem c10_witness :
    ((([] : List Str) ≠ [] → truthy none = true) ∧
     cueMatch (clean_line "MARY".data) = some "MARY".data ∧
     clean_line "JOHN".data ≠ [] ∧
     cueMatch (clean_line "JOHN".data) = some "JOHN".data ∧
     is_valid_dialogue_line (clean_line "JOHN".data) (some (pyStrip "MARY".data)) = false ∧
     (∀ l ∈ ["Once more.".data], cueMatch (clean_line l) = none ∧
        ¬(endsWithStr (clean_line l) contSuffix = true ∧
          upperStr (pyStrip (removeAllCS contSuffix (clean_line l))) = pyStrip "MARY".data))) ∧
    processLines ["MARY".data, "JOHN".data, "Once more.".data]
        ⟨initDict ["Mary".data], none, []⟩ =
      ⟨flushInto (initDict ["Mary".data]) none [], some (pyStrip "MARY".data), []⟩ :=
  ⟨⟨by decide, by decide, by decide, by decide, by decide, by decide⟩,
   c10_amended (initDict ["Mary".data]) none [] "MARY".data "JOHN".data
     ["Once more.".data] "MARY".data "JOHN".data (by decide) (by decide) (by decide)
     (by decide) (by decide) (by decide)⟩

/-! ### Claim C2: continuation-cue case sensitivity -/

/-- C2, counterexample: the all-caps line `"MARY (CONT'D)"` is not
recognized as a continuation cue — `endswith("(cont'd)")` is
case-sensitive and fails, the line matches the speaker-cue pattern
instead, and the following dialogue starts a NEW block rather than
continuing the pending one. -/
theorem c2_counterexample :
    endsWithStr (clean_line "MARY (CONT'D)".data) contSuffix = false ∧
    cueMatch (clean_line "MARY (CONT'D)".data) = some "MARY ".data ∧
    extract_dialogues
      [["MARY".data, "Hello there".data, "MARY (CONT'D)".data, "how are you?".data]]
      ["Mary".data]
      = [("MARY".data, ["Hello there".data, "how are you?".data])] := by
  decide

/-- The loop body at a lowercase continuation cue naming the active
speaker: the look-ahead line is consumed and appended to the SAME
pending dialogue. -/
theorem lineStep_cont (d : List (Str × List Str)) (c : Str) (dlg : List Str) (l nl : Str)
    (hcue : cueMatch (clean_line l) = none)
    (hc : c ≠ [])
    (hend : endsWithStr (clean_line l) contSuffix = true)
    (hname : upperStr (pyStrip (removeAllCS contSuffix (clean_line l))) = c)
    (hdl : clean_line nl ≠ [])
    (hval : is_valid_dialogue_line (clean_line nl) (some c) = true) :
    lineStep ⟨d, some c, dlg⟩ l (some nl) = (⟨d, some c, dlg ++ [clean_line nl]⟩, true) := by
  have hnil : clean_line l ≠ [] := by
    intro h0
    rw [h0] at hend
    exact absurd hend (by decide)
  rw [lineStep]
  simp only [if_neg hnil, hcue]
  rw [nonCue]
  simp only [if_pos (And.intro hc hend)]
  rw [contTry.eq_def, if_pos hname]
  simp only [peekStep, if_pos (And.intro hdl hval)]

/-- C2, amended: continuation-cue detection is case-sensitive.  A line
that does not match the speaker-cue pattern, ends in the exact
lowercase suffix `"(cont'd)"`, and whose name-prefix uppercases to the
active speaker causes the next line to be consumed as an additional
line of the same pending dialogue when it passes the validity check;
an all-caps `"NAME (CONT'D)"` line instead matches the speaker-cue
pattern and starts a new block (see the counterexample). -/
theorem c2_amended (d : List (Str × List Str)) (c : Str) (dlg : List Str) (l nl : Str)
    (rest : List Str)
    (hcue : cueMatch (clean_line l) = none)
    (hc : c ≠ [])
    (hend : endsWithStr (clean_line l) contSuffix = true)
    (hname : upperStr (pyStrip (removeAllCS contSuffix (clean_line l))) = c)
    (hdl : clean_line nl ≠ [])
    (hval : is_valid_dialogue_line (clean_line nl) (some c) = true) :
    processLines (l :: nl :: rest) ⟨d, some c, dlg⟩ =
      processLines rest ⟨d, some c, dlg ++ [clean_line nl]⟩ := by
  rw [processLines_cons2, lineStep_cont d c dlg l nl hcue hc hend hname hdl hval]
  simp

/-- C2, witness: the amended continuation behavior at the concrete
mixed-case speaker McCoy (cue stored as MCCOY), where the lowercase
`"(cont'd)"` line does not match the speaker-cue pattern. -/
theorem c2_witness :
    (cueMatch (clean_line "McCoy (cont'd)".data) = none ∧
     "MCCOY".data ≠ ([] : Str) ∧
     endsWithStr (clean_line "McCoy (cont'd)".data) contSuffix = true ∧
     upperStr (pyStrip (removeAllCS contSuffix (clean_line "McCoy (cont'd)".data))) = "MCCOY".data ∧
     clean_line "how are you?".data ≠ [] ∧
     is_valid_dialogue_line (clean_line "how are you?".data) (some "MCCOY".data) = true) ∧
    processLines ["McCoy (cont'd)".data, "how are you?".data]
        ⟨initDict ["McCoy".data], some "MCCOY".data, ["Hello there".data]⟩ =
      processLines []
        ⟨initDict ["McCoy".data], some "MCCOY".data,
         ["Hello there".data] ++ [clean_line "how are you?".data]⟩ :=
  ⟨⟨by decide, by decide, by decide, by decide, by decide, by decide⟩,
   c2_amended (initDict ["McCoy".data]) "MCCOY".data ["Hello there".data]
     "McCoy (cont'd)".data "how are you?".data [] (by decide) (by decide) (by decide)
     (by decide) (by decide) (by decide)⟩

/-! ### More strip lemmas, for the invariant -/

theorem dropWhile_eq_nil_mem (p : Char → Bool) (l : Str) (h : l.dropWhile p = []) :
    ∀ x ∈ l, p x = true := by
  induction l with
  | nil => intro x hx; cases hx
  | cons a t ih =>
    rw [List.dropWhile_cons] at h
    by_cases hp : p a = true
    · rw [if_pos hp] at h
      intro x hx
      rcases List.mem_cons.mp hx with rfl | hx'
      · exact hp
      · exact ih h x hx'
    · rw [if_neg hp] at h
      exact absurd h (List.cons_ne_nil a t)

theorem stripR_cons_ne_nil (c : Char) (t : Str) (hc : wsC c = false) :
    stripR (c :: t) ≠ [] := by
  intro h
  unfold stripR at h
  rw [List.reverse_eq_nil_iff] at h
  have hm := dropWhile_eq_nil_mem wsC ((c :: t).reverse) h c (by simp)
  rw [hc] at hm
  exact Bool.false_ne_true hm

theorem pyStrip_cons_ne_nil (c : Char) (t : Str) (hc : wsC c = false) :
    pyStrip (c :: t) ≠ [] := by
  unfold pyStrip stripL
  rw [List.dropWhile_cons_of_neg (by simp [hc])]
  exact stripR_cons_ne_nil c t hc

theorem stripR_length_le (u : Str) : (stripR u).length ≤ u.length := by
  unfold stripR
  rw [List.length_reverse]
  calc (u.reverse.dropWhile wsC).length ≤ u.reverse.length :=
        List.Sublist.length_le (List.dropWhile_sublist _)
    _ = u.length := List.length_reverse u

theorem head_not_ws_of_pyStrip_fix (c : Char) (t : Str) (h : pyStrip (c :: t) = c :: t) :
    wsC c = false := by
  by_contra hcon
  rw [Bool.not_eq_false] at hcon
  have h1 : stripL (c :: t) = t.dropWhile wsC := by
    unfold stripL
    rw [List.dropWhile_cons_of_pos hcon]
  have hlen1 : (t.dropWhile wsC).length ≤ t.length :=
    List.Sublist.length_le (List.dropWhile_sublist _)
  have hlen2 := stripR_length_le (stripL (c :: t))
  rw [h1] at hlen2
  have hfull := congrArg List.length h
  unfold pyStrip at hfull
  rw [h1] at hfull
  simp only [List.length_cons] at hfull
  omega

theorem joinSp_cons_shape (x : Str) (xs : List Str) : ∃ r, joinSp (x :: xs) = x ++ r := by
  cases xs with
  | nil => exact ⟨[], by simp [joinSp]⟩
  | cons y r => exact ⟨' ' :: joinSp (y :: r), rfl⟩

theorem pyStrip_joinSp_ne_nil (x : Str) (xs : List Str) (hx : x ≠ []) (hs : pyStrip x = x) :
    pyStrip (joinSp (x :: xs)) ≠ [] := by
  obtain ⟨r, hr⟩ := joinSp_cons_shape x xs
  rw [hr]
  cases x with
  | nil => exact absurd rfl hx
  | cons c t =>
    have hc : wsC c = false := head_not_ws_of_pyStrip_fix c t hs
    rw [List.cons_append]
    exact pyStrip_cons_ne_nil c (t ++ r) hc

/-! ### Dictionary lemmas -/

theorem keysOf_dappend (d : List (Str × List Str)) (k : Str) (v : Str) :
    keysOf (dappend d k v) = keysOf d := by
  unfold keysOf dappend
  rw [List.map_map]
  apply List.map_congr_left
  intro p _
  by_cases h : p.1 = k <;> simp [h]

theorem keysOf_flushInto (d : List (Str × List Str)) (cur : Option Str) (dlg : List Str) :
    keysOf (flushInto d cur dlg) = keysOf d := by
  unfold flushInto
  cases cur with
  | none => rfl
  | some c =>
    dsimp only
    by_cases h1 : c ≠ [] ∧ dlg ≠ []
    · rw [if_pos h1]
      by_cases h2 : hasKey d c = true
      · rw [if_pos h2]
        by_cases h3 : pyStrip (joinSp dlg) = []
        · rw [if_pos h3]
        · rw [if_neg h3, keysOf_dappend]
      · rw [if_neg h2]
    · rw [if_neg h1]

theorem blocksNE_dappend (d : List (Str × List Str)) (k : Str) (v : Str)
    (hd : blocksNE d) (hv : v ≠ []) : blocksNE (dappend d k v) := by
  intro p hp b hb
  unfold dappend at hp
  rw [List.mem_map] at hp
  obtain ⟨q, hq, hpq⟩ := hp
  by_cases h : q.1 = k
  · rw [if_pos h] at hpq
    subst hpq
    rcases List.mem_append.mp hb with hb' | hb'
    · exact hd q hq b hb'
    · rw [List.mem_singleton] at hb'
      subst hb'
      exact hv
  · rw [if_neg h] at hpq
    subst hpq
    exact hd q hq b hb

theorem blocksNE_flushInto (d : List (Str × List Str)) (cur : Option Str) (dlg : List Str)
    (hd : blocksNE d) : blocksNE (flushInto d cur dlg) := by
  unfold flushInto
  cases cur with
  | none => exact hd
  | some c =>
    dsimp only
    by_cases h1 : c ≠ [] ∧ dlg ≠ []
    · rw [if_pos h1]
      by_cases h2 : hasKey d c = true
      · rw [if_pos h2]
        by_cases h3 : pyStrip (joinSp dlg) = []
        · rw [if_pos h3]; exact hd
        · rw [if_neg h3]; exact blocksNE_dappend d c _ hd h3
      · rw [if_neg h2]; exact hd
    · rw [if_neg h1]; exact hd

theorem dlookup_mem (d : List (Str × List Str)) (k : Str) (bs : List Str)
    (h : dlookup d k = some bs) : (k, bs) ∈ d := by
  induction d with
  | nil => cases h
  | cons p r ih =>
    rw [dlookup] at h
    by_cases hk : p.1 = k
    · rw [if_pos hk] at h
      injection h with h'
      have : (k, bs) = p := by
        rw [← hk, ← h']
      rw [this]
      exact List.mem_cons_self p r
    · rw [if_neg hk] at h
      exact List.mem_cons_of_mem _ (ih h)

theorem dlookup_hasKey (d : List (Str × List Str)) (k : Str) (bs : List Str)
    (h : dlookup d k = some bs) : hasKey d k = true := by
  induction d with
  | nil => cases h
  | cons p r ih =>
    rw [dlookup] at h
    unfold hasKey
    rw [List.any_cons]
    by_cases hk : p.1 = k
    · simp [hk]
    · rw [if_neg hk] at h
      have hdec : (decide (p.1 = k)) = false := by simp [hk]
      rw [hdec, Bool.false_or]
      exact ih h

theorem dlookup_dappend_self (d : List (Str × List Str)) (k : Str) (v : Str) :
    dlookup (dappend d k v) k = (dlookup d k).map (fun bs => bs ++ [v]) := by
  induction d with
  | nil => rfl
  | cons p r ih =>
    unfold dappend
    rw [List.map_cons]
    by_cases h : p.1 = k
    · rw [if_pos h, dlookup, dlookup, if_pos h, if_pos h]
      rfl
    · rw [if_neg h, dlookup, dlookup, if_neg h, if_neg h]
      exact ih

theorem dlookup_eq_none (d : List (Str × List Str)) (k : Str) (h : k ∉ keysOf d) :
    dlookup d k = none := by
  induction d with
  | nil => rfl
  | cons p r ih =>
    rw [dlookup]
    have h1 : ¬(p.1 = k) := by
      intro he
      apply h
      unfold keysOf
      rw [List.map_cons, he]
      exact List.mem_cons_self k _
    rw [if_neg h1]
    refine ih ?_
    intro hk
    apply h
    unfold keysOf at hk ⊢
    rw [List.map_cons]
    exact List.mem_cons_of_mem _ hk

theorem hasKey_mem_iff (d : List (Str × List Str)) (k : Str) :
    hasKey d k = true ↔ k ∈ keysOf d := by
  unfold hasKey keysOf
  rw [List.any_eq_true]
  constructor
  · rintro ⟨p, hp, hpk⟩
    rw [decide_eq_true_eq] at hpk
    exact hpk ▸ List.mem_map_of_mem Prod.fst hp
  · intro hk
    rw [List.mem_map] at hk
    obtain ⟨p, hp, hpk⟩ := hk
    exact ⟨p, hp, by rw [decide_eq_true_eq]; exact hpk⟩

/-! ### Shape of a cue match -/

theorem cueCore_shape (s : Str) (g : Str) (h : cueCore s = some g) :
    ∃ c t, g = c :: t ∧ isUpperAZ c = true := by
  unfold cueCore at h
  cases s with
  | nil => cases h
  | cons c rest =>
    dsimp only at h
    by_cases hc : (isUpperAZ c && !(rest.takeWhile isNameChar).isEmpty &&
        cueTailOK (rest.dropWhile isNameChar)) = true
    · rw [if_pos hc] at h
      injection h with h'
      refine ⟨c, rest.takeWhile isNameChar, h'.symm, ?_⟩
      rw [Bool.and_eq_true, Bool.and_eq_true] at hc
      exact hc.1.1
    · rw [if_neg hc] at h
      cases h

theorem cueMatch_shape (line : Str) (g : Str) (h : cueMatch line = some g) :
    ∃ c t, g = c :: t ∧ isUpperAZ c = true := by
  unfold cueMatch at h
  cases hC : cueWithThe line with
  | some g' =>
    rw [hC] at h
    injection h with h'
    subst h'
    unfold cueWithThe at hC
    simp only [bind, Option.bind_eq_some] at hC
    obtain ⟨r1, _, r2, _, hC3⟩ := hC
    exact cueCore_shape r2 g' hC3
  | none =>
    rw [hC] at h
    exact cueCore_shape line g h

theorem isUpperAZ_not_ws (c : Char) (h : isUpperAZ c = true) : wsC c = false := by
  by_contra hcon
  rw [Bool.not_eq_false] at hcon
  unfold wsC Char.isWhitespace at hcon
  simp only [Bool.or_eq_true, decide_eq_true_eq] at hcon
  rcases hcon with ((h1 | h1) | h1) | h1 <;> subst h1 <;> exact absurd h (by decide)

theorem cueMatch_strip_ne_nil (line : Str) (g : Str) (h : cueMatch line = some g) :
    pyStrip g ≠ [] := by
  obtain ⟨c, t, hg, hc⟩ := cueMatch_shape line g h
  subst hg
  exact pyStrip_cons_ne_nil c t (isUpperAZ_not_ws c hc)

/-! ### Invariant preservation -/

theorem dlgOK_append (dlg : List Str) (x : Str) (h : dlgOK dlg) (hx : x ≠ [])
    (hs : pyStrip x = x) : dlgOK (dlg ++ [x]) := by
  intro y hy
  rcases List.mem_append.mp hy with hy' | hy'
  · exact h y hy'
  · rw [List.mem_singleton] at hy'
    subst hy'
    exact ⟨hx, hs⟩

theorem inv_cueStep (K : List Str) (st : SegState) (g : Str) (h : Inv K st)
    (hg : pyStrip g ≠ []) : Inv K (cueStep st g) := by
  obtain ⟨hk, hb, hd, _⟩ := h
  refine ⟨?_, ?_, ?_, ?_⟩
  · show keysOf (flushInto st.dict st.cur st.dlg) = K
    rw [keysOf_flushInto, hk]
  · exact blocksNE_flushInto _ _ _ hb
  · show dlgOK (if truthy st.cur ∧ st.dlg ≠ [] then [] else st.dlg)
    split_ifs
    · intro x hx
      cases hx
    · exact hd
  · exact hg

theorem inv_peekStep (K : List Str) (st : SegState) (nl : Str) (h : Inv K st) :
    Inv K (peekStep st nl) := by
  obtain ⟨d, cur, dlg⟩ := st
  obtain ⟨hk, hb, hd, hc⟩ := h
  cases cur with
  | none => exact ⟨hk, hb, hd, hc⟩
  | some c =>
    rw [peekStep]
    dsimp only
    split_ifs with hcond
    · exact ⟨hk, hb, dlgOK_append _ _ hd hcond.1 (clean_line_stripped nl), hc⟩
    · exact ⟨hk, hb, hd, hc⟩

theorem inv_genFlush (K : List Str) (st : SegState) (c : Str) (h : Inv K st) :
    Inv K (genFlush st c) := by
  obtain ⟨hk, hb, _, _⟩ := h
  refine ⟨?_, ?_, ?_, ?_⟩
  · show keysOf (flushInto st.dict (some c) st.dlg) = K
    rw [keysOf_flushInto, hk]
  · show blocksNE (flushInto st.dict (some c) st.dlg)
    exact blocksNE_flushInto st.dict (some c) st.dlg hb
  · intro x hx
    cases hx
  · trivial

theorem inv_lineStep (K : List Str) (st : SegState) (l : Str) (next : Option Str)
    (h : Inv K st) : Inv K (lineStep st l next).1 := by
  rw [lineStep]
  by_cases hnil : clean_line l = []
  · simp only [if_pos hnil]
    exact h
  · simp only [if_neg hnil]
    cases hcm : cueMatch (clean_line l) with
    | some g =>
      have hg := cueMatch_strip_ne_nil _ _ hcm
      dsimp only
      cases next with
      | none =>
        dsimp only [cueGo]
        exact inv_cueStep K st g h hg
      | some nl =>
        dsimp only [cueGo]
        exact inv_peekStep K (cueStep st g) nl (inv_cueStep K st g h hg)
    | none =>
      dsimp only
      rw [nonCue]
      cases hcur : st.cur with
      | none =>
        simp only [hcur]
        exact h
      | some c =>
        simp only [hcur]
        by_cases hcd : c ≠ [] ∧ endsWithStr (clean_line l) contSuffix = true
        · simp only [if_pos hcd]
          rw [contTry.eq_def]
          by_cases hnm : upperStr (pyStrip (removeAllCS contSuffix (clean_line l))) = c
          · simp only [if_pos hnm]
            cases next with
            | none => exact h
            | some nl => exact inv_peekStep K st nl h
          · simp only [if_neg hnm]
            exact h
        · simp only [if_neg hcd]
          rw [genGo]
          by_cases hgd : c ≠ [] ∧ st.dlg ≠ []
          · simp only [if_pos hgd]
            by_cases hv : is_valid_dialogue_line (clean_line l) (some c) = true
            · simp only [if_pos hv]
              exact ⟨h.1, h.2.1, dlgOK_append _ _ h.2.2.1 hnil (clean_line_stripped l), h.2.2.2⟩
            · simp only [if_neg hv]
              exact inv_genFlush K st c h
          · simp only [if_neg hgd]
            exact h

theorem processLines_inv_aux (K : List Str) :
    ∀ (n : Nat) (ls : List Str), ls.length ≤ n → ∀ st, Inv K st →
      Inv K (processLines ls st) := by
  intro n
  induction n with
  | zero =>
    intro ls hls st hst
    have hnil : ls = [] := List.eq_nil_of_length_eq_zero (Nat.le_zero.mp hls)
    subst hnil
    exact hst
  | succ n ih =>
    intro ls hls st hst
    match ls with
    | [] => exact hst
    | [l] =>
      rw [processLines_one]
      exact inv_lineStep K st l none hst
    | l :: nl :: rest2 =>
      rw [processLines_cons2]
      simp only [List.length_cons] at hls
      by_cases hc : (lineStep st l (some nl)).2 = true
      · rw [if_pos hc]
        exact ih rest2 (by omega) _ (inv_lineStep K st l (some nl) hst)
      · rw [if_neg hc]
        exact ih (nl :: rest2) (by simp only [List.length_cons]; omega) _
          (inv_lineStep K st l (some nl) hst)

theorem processLines_inv (K : List Str) (ls : List Str) (st : SegState) (h : Inv K st) :
    Inv K (processLines ls st) :=
  processLines_inv_aux K ls.length ls (Nat.le_refl _) st h

theorem runPages_cons (pg : List Str) (rest : List (List Str)) (st : SegState) :
    runPages (pg :: rest) st = runPages rest (processLines pg st) := rfl

theorem runPages_inv (K : List Str) (pages : List (List Str)) (st : SegState)
    (h : Inv K st) : Inv K (runPages pages st) := by
  induction pages generalizing st with
  | nil => exact h
  | cons pg rest ih =>
    rw [runPages_cons]
    exact ih _ (processLines_inv K pg st h)

/-! ### The initial state -/

theorem initDict_vals_aux (chars : List Str) :
    ∀ (acc : List (Str × List Str)), (∀ p ∈ acc, p.2 = ([] : List Str)) →
      ∀ p ∈ chars.foldl
        (fun d ch => if hasKey d (upperStr ch) then d else d ++ [(upperStr ch, [])]) acc,
        p.2 = ([] : List Str) := by
  induction chars with
  | nil => intro acc hacc; exact hacc
  | cons ch chs ih =>
    intro acc hacc
    rw [List.foldl_cons]
    apply ih
    by_cases h : hasKey acc (upperStr ch) = true
    · rw [if_pos h]
      exact hacc
    · rw [if_neg h]
      intro p hp
      rcases List.mem_append.mp hp with hp' | hp'
      · exact hacc p hp'
      · rw [List.mem_singleton] at hp'
        subst hp'
        rfl

theorem initDict_vals (chars : List Str) : ∀ p ∈ initDict chars, p.2 = ([] : List Str) :=
  initDict_vals_aux chars [] (fun p hp => absurd hp (List.not_mem_nil p))

theorem inv_init (chars : List Str) :
    Inv (keysOf (initDict chars)) ⟨initDict chars, none, []⟩ := by
  refine ⟨rfl, ?_, ?_, trivial⟩
  · intro p hp b hb
    rw [initDict_vals chars p hp] at hb
    cases hb
  · intro x hx
    cases hx

theorem keysOf_extract (pages : List (List Str)) (chars : List Str) :
    keysOf (extract_dialogues pages chars) = keysOf (initDict chars) := by
  unfold extract_dialogues
  rw [keysOf_flushInto]
  exact (runPages_inv (keysOf (initDict chars)) pages _ (inv_init chars)).1

theorem mem_keys_initAux (chars : List Str) :
    ∀ (acc : List (Str × List Str)) (k : Str),
      k ∈ keysOf (chars.foldl
        (fun d ch => if hasKey d (upperStr ch) then d else d ++ [(upperStr ch, [])]) acc) ↔
      k ∈ keysOf acc ∨ ∃ ch ∈ chars, upperStr ch = k := by
  induction chars with
  | nil =>
    intro acc k
    simp
  | cons ch chs ih =>
    intro acc k
    rw [List.foldl_cons, ih]
    by_cases h : hasKey acc (upperStr ch) = true
    · rw [if_pos h]
      rw [hasKey_mem_iff] at h
      constructor
      · rintro (hk | hk)
        · exact Or.inl hk
        · exact Or.inr (by obtain ⟨c0, hc0, he⟩ := hk; exact ⟨c0, List.mem_cons_of_mem _ hc0, he⟩)
      · rintro (hk | ⟨c0, hc0, he⟩)
        · exact Or.inl hk
        · rcases List.mem_cons.mp hc0 with rfl | hc0'
          · exact Or.inl (he ▸ h)
          · exact Or.inr ⟨c0, hc0', he⟩
    · rw [if_neg h]
      have hk2 : keysOf (acc ++ [(upperStr ch, [])]) = keysOf acc ++ [upperStr ch] := by
        unfold keysOf
        rw [List.map_append]
        rfl
      rw [hk2]
      constructor
      · rintro (hk | hk)
        · rcases List.mem_append.mp hk with hk' | hk'
          · exact Or.inl hk'
          · rw [List.mem_singleton] at hk'
            exact Or.inr ⟨ch, List.mem_cons_self _ _, hk'.symm⟩
        · obtain ⟨c0, hc0, he⟩ := hk
          exact Or.inr ⟨c0, List.mem_cons_of_mem _ hc0, he⟩
      · rintro (hk | ⟨c0, hc0, he⟩)
        · exact Or.inl (List.mem_append.mpr (Or.inl hk))
        · rcases List.mem_cons.mp hc0 with rfl | hc0'
          · exact Or.inl (List.mem_append.mpr (Or.inr (by rw [List.mem_singleton, he])))
          · exact Or.inr ⟨c0, hc0', he⟩

theorem mem_keys_initDict (chars : List Str) (k : Str) :
    k ∈ keysOf (initDict chars) ↔ ∃ ch ∈ chars, upperStr ch = k := by
  have h := mem_keys_initAux chars [] k
  unfold initDict
  rw [h]
  simp [keysOf]

/-! ### Claim C6: block non-emptiness -/

/-- C6: for every input page sequence and tracked character set, every
dialogue-block string in the returned dictionary is non-empty — the
flush sites only append a joined block after checking it is non-empty. -/
theorem c6_blocks_nonempty (pages : List (List Str)) (chars : List Str) (k : Str)
    (bs : List Str) (h : dlookup (extract_dialogues pages chars) k = some bs) :
    ∀ b ∈ bs, b ≠ ([] : Str) := by
  have hb : blocksNE (extract_dialogues pages chars) := by
    unfold extract_dialogues
    exact blocksNE_flushInto _ _ _
      (runPages_inv (keysOf (initDict chars)) pages _ (inv_init chars)).2.1
  exact hb (k, bs) (dlookup_mem _ _ _ h)

/-- C6, witness: on a concrete run the stored blocks are non-empty. -/
theorem c6_witness :
    dlookup (extract_dialogues [["MARY".data, "Hello there".data]] ["Mary".data])
      "MARY".data = some ["Hello there".data] ∧
    (∀ b ∈ ["Hello there".data], b ≠ ([] : Str)) :=
  ⟨by decide,
   c6_blocks_nonempty [["MARY".data, "Hello there".data]] ["Mary".data] "MARY".data
     ["Hello there".data] (by decide)⟩

/-! ### Claim C7: end-of-input flush -/

/-- C7: if the line stream ends while a tracked speaker is active with
non-empty pending dialogue, the joined pending block is appended as the
last block of that speaker's list in the returned dictionary. -/
theorem c7_end_flush (pages : List (List Str)) (chars : List Str) (c : Str)
    (bs : List Str)
    (h1 : (finalState pages chars).cur = some c)
    (h2 : (finalState pages chars).dlg ≠ [])
    (h3 : dlookup (finalState pages chars).dict c = some bs) :
    dlookup (extract_dialogues pages chars) c =
      some (bs ++ [pyStrip (joinSp (finalState pages chars).dlg)]) := by
  have hInv : Inv (keysOf (initDict chars)) (finalState pages chars) :=
    runPages_inv (keysOf (initDict chars)) pages _ (inv_init chars)
  have hcne : c ≠ [] := by
    have hcur := hInv.2.2.2
    rw [h1] at hcur
    exact hcur
  have hj : pyStrip (joinSp (finalState pages chars).dlg) ≠ [] := by
    cases hd : (finalState pages chars).dlg with
    | nil => exact absurd hd h2
    | cons x xs =>
      have hx := hInv.2.2.1 x (by rw [hd]; exact List.mem_cons_self _ _)
      exact pyStrip_joinSp_ne_nil x xs hx.1 hx.2
  show dlookup (flushInto (finalState pages chars).dict (finalState pages chars).cur
      (finalState pages chars).dlg) c = _
  rw [h1]
  unfold flushInto
  dsimp only
  rw [if_pos (And.intro hcne h2), if_pos (dlookup_hasKey _ _ _ h3), if_neg hj,
    dlookup_dappend_self, h3]
  rfl

/-- C7, witness: a page that ends mid-dialogue still yields the block. -/
theorem c7_witness :
    ((finalState [["MARY".data, "Hello there".data]] ["Mary".data]).cur = some "MARY".data ∧
     (finalState [["MARY".data, "Hello there".data]] ["Mary".data]).dlg ≠ [] ∧
     dlookup (finalState [["MARY".data, "Hello there".data]] ["Mary".data]).dict
       "MARY".data = some []) ∧
    dlookup (extract_dialogues [["MARY".data, "Hello there".data]] ["Mary".data])
        "MARY".data =
      some ([] ++ [pyStrip (joinSp
        (finalState [["MARY".data, "Hello there".data]] ["Mary".data]).dlg)]) :=
  ⟨⟨by decide, by decide, by decide⟩,
   c7_end_flush [["MARY".data, "Hello there".data]] ["Mary".data] "MARY".data []
     (by decide) (by decide) (by decide)⟩

/-! ### Claim C8: untracked speaker filtering -/

/-- C8: a speaker whose uppercased name is not the uppercased form of
any tracked character never gains an entry in the result, however much
dialogue follows its cue. -/
theorem c8_untracked (pages : List (List Str)) (chars : List Str) (name : Str)
    (h : ∀ ch ∈ chars, upperStr ch ≠ upperStr name) :
    dlookup (extract_dialogues pages chars) (upperStr name) = none := by
  apply dlookup_eq_none
  intro hk
  rw [keysOf_extract, mem_keys_initDict] at hk
  obtain ⟨ch, hch, he⟩ := hk
  exact h ch hch he

/-- C8, witness: JOHN speaks but only Mary is tracked. -/
theorem c8_witness :
    (∀ ch ∈ ["Mary".data], upperStr ch ≠ upperStr "John".data) ∧
    dlookup (extract_dialogues [["JOHN".data, "Hello there".data]] ["Mary".data])
      (upperStr "John".data) = none :=
  ⟨by decide,
   c8_untracked [["JOHN".data, "Hello there".data]] ["Mary".data] "John".data (by decide)⟩

/-! ### Claim C9: the key set of the result -/

/-- C9: the key set of the returned dictionary is exactly the set of
uppercased tracked character names — every tracked character is a key
(possibly with an empty list), and no other key is ever added. -/
theorem c9_keys (pages : List (List Str)) (chars : List Str) :
    (∀ ch ∈ chars, upperStr ch ∈ keysOf (extract_dialogues pages chars)) ∧
    (∀ k ∈ keysOf (extract_dialogues pages chars), ∃ ch ∈ chars, upperStr ch = k) := by
  constructor
  · intro ch hch
    rw [keysOf_extract, mem_keys_initDict]
    exact ⟨ch, hch, rfl⟩
  · intro k hk
    rw [keysOf_extract, mem_keys_initDict] at hk
    exact hk

/-- C9, witness: both directions at a concrete run in which John never
speaks (and still gets a key). -/
theorem c9_witness :
    ("John".data ∈ ["Mary".data, "John".data] ∧
     upperStr "John".data ∈
       keysOf (extract_dialogues [["MARY".data, "Hello there".data]]
         ["Mary".data, "John".data])) ∧
    (upperStr "Mary".data ∈
       keysOf (extract_dialogues [["MARY".data, "Hello there".data]]
         ["Mary".data, "John".data]) ∧
     ∃ ch ∈ ["Mary".data, "John".data], upperStr ch = upperStr "Mary".data) :=
  ⟨⟨by decide,
    (c9_keys [["MARY".data, "Hello there".data]] ["Mary".data, "John".data]).1
      "John".data (by decide)⟩,
   ⟨by decide,
    (c9_keys [["MARY".data, "Hello there".data]] ["Mary".data, "John".data]).2
      (upperStr "Mary".data) (by decide)⟩⟩

end Scrape
